import Mathlib

set_option maxRecDepth 40000

/-!
Shallow embedding of the ec3k decoder (`src/devices/ec3k.c`), the rtl_433
device driver for the Voltcraft Energy Count 3000 energy meter, together with
theorems settling the claims about its specification.

Modelling conventions:
  * A level row (`bitrow_t` plus `row_bits`) is a `List Bool`; `row_bits` is
    the list length.  `bit_at row i` gives the bit at index `i` as `0`/`1`,
    exactly as the C helper reads bit `i` of the packed byte row.
  * Machine integers become `Nat` (or `Int` for the signed frequency
    difference); truncating conversions are explicit `&&&` masks where the C
    types force them.
  * The single emitted record is modelled by `Option TelemetryRecord`; the
    record keeps the integer numerators the C code divides by `10.0` and by
    `1000.0 * 3600.0`, since only those integers are claimed about (the float
    quotients themselves are out of scope).
  * The frame-assembler state carries a ghost `writes` log recording the
    buffer index of every `packetbuffer[packetpos++] = recbyte` store, so
    that in-bounds claims about the 100-byte C array can be stated without
    changing any computational behaviour.
-/

/-- Reads level bit `i` of a row as `0` or `1` (C `bit_at`). Indices past the
end read as `0`, which the decoder never relies on. -/
def bit_at (row : List Bool) (bit : Nat) : Nat :=
  if row.getD bit false then 1 else 0

/-- NRZI decoding (C `symbol_at`): symbol is `1` when the level equals the
previous level (implicit level `0` before index `0`), else `0`. -/
def symbol_at (row : List Bool) (bit : Nat) : Nat :=
  let bit0 := if bit > 0 then bit_at row (bit - 1) else 0
  let bit1 := bit_at row bit
  if bit0 = bit1 then 1 else 0

/-- Descrambled bit consumed by the loop body of `ec3_decode_row` at scan
index `i`: `symbol_at i`, XORed with `symbol_at (i-17)` when `i > 17` and
with `symbol_at (i-12)` when `i > 12`. -/
def out_at (row : List Bool) (i : Nat) : Nat :=
  let o1 := symbol_at row i
  let o2 := if i > 17 then o1 ^^^ symbol_at row (i - 17) else o1
  if i > 12 then o2 ^^^ symbol_at row (i - 12) else o2

/-- The sequence of descrambled bits the frame assembler consumes: scan
indices `17, 18, ..., row_bits - 1` (the C loop `for (i = 17; i < row_bits)`). -/
def outs (row : List Bool) : List Nat :=
  (List.range' 17 (row.length - 17)).map (out_at row)

/-- C `unpack_nibbles`: packs `num_nibbles` consecutive 4-bit nibbles starting
at nibble offset `start_nibble` (nibble 0 = high nibble of byte 0),
most-significant first. -/
def unpack_nibbles (buf : List Nat) (start_nibble num_nibbles : Nat) : Nat :=
  (List.range num_nibbles).foldl
    (fun val i =>
      (val <<< 4) |||
        ((buf.getD ((start_nibble + i) / 2) 0 >>> ((1 - ((start_nibble + i) % 2)) * 4)) &&& 0x0F))
    0

/-- C `update_ec3k_crc`: one byte step of the non-standard ec3k CRC-16.  The
entry masks model the `uint16_t crc` and `uint8_t ch` parameters, the exit
mask the `uint16_t` return type. -/
def update_ec3k_crc (crc0 ch0 : Nat) : Nat :=
  let crc := crc0 &&& 0xffff
  let ch1 := (ch0 &&& 0xff) ^^^ (crc &&& 0xff)
  let ch2 := ch1 ^^^ ((ch1 <<< 4) &&& 0xff)
  ((((ch2 <<< 8) ||| (crc >>> 8)) ^^^ (ch2 >>> 4)) ^^^ (ch2 <<< 3)) &&& 0xffff

/-- C `calc_ec3k_crc`: seed `0xffff`, fold `update_ec3k_crc` over the bytes,
finally XOR with `0xffff`. -/
def calc_ec3k_crc (buffer : List Nat) : Nat :=
  (buffer.foldl update_ec3k_crc 0xffff) ^^^ 0xffff

/-- State of the frame assembler / bit-unstuffer inside `ec3_decode_row`.
`writes` is a ghost log of the `packetpos` index of every buffer store. -/
structure FrameState where
  packet : Bool
  onecount : Nat
  recbyte : Nat
  recpos : Nat
  packetpos : Nat
  packetbuffer : List Nat
  writes : List Nat
deriving DecidableEq, Repr

/-- Initial frame-assembler state of `ec3_decode_row`. -/
def initState : FrameState :=
  { packet := false, onecount := 0, recbyte := 0, recpos := 0,
    packetpos := 0, packetbuffer := [], writes := [] }

/-- Store a byte at index `i` of the packet buffer, modelling the C array
write `packetbuffer[i] = v` (fresh indexes extend the modelled buffer). -/
def writeAt (buf : List Nat) (i v : Nat) : List Nat :=
  if i < buf.length then buf.set i v else buf ++ [v]

/-- The flush `recpos = 0; packetbuffer[packetpos++] = recbyte`, logging the
written index in the ghost `writes` field. -/
def pushByte (s : FrameState) : FrameState :=
  { s with recpos := 0,
           packetbuffer := writeAt s.packetbuffer s.packetpos s.recbyte,
           writes := s.packetpos :: s.writes,
           packetpos := s.packetpos + 1 }

/-- Result of one frame-assembler step: either continue scanning, or hand a
41-byte candidate payload off to field extraction (the C `goto exit_decoder`
path), keeping the state reached at that moment. -/
inductive StepResult where
  | cont (s : FrameState)
  | handoff (payload : List Nat) (s : FrameState)
deriving DecidableEq, Repr

/-- One iteration of the scanning loop of `ec3_decode_row` on descrambled bit
`out`. -/
def processBit (s : FrameState) (out : Nat) : StepResult :=
  if out ≠ 0 then
    let t : FrameState :=
      { s with onecount := s.onecount + 1,
               recbyte := (s.recbyte >>> 1) ||| 0x80,
               recpos := s.recpos + 1 }
    .cont (if t.recpos = 8 ∧ t.packet then pushByte t else t)
  else
    let s1 :=
      if s.onecount < 5 then
        let t : FrameState := { s with recbyte := s.recbyte >>> 1, recpos := s.recpos + 1 }
        if t.recpos = 8 ∧ t.packet then pushByte t else t
      else s
    if s1.onecount = 6 then
      if s1.packet ∧ s1.packetpos = 41 then
        .handoff (s1.packetbuffer.take 41) s1
      else
        .cont { s1 with packet := !s1.packet, recpos := 0, packetpos := 0, onecount := 0 }
    else
      .cont { s1 with onecount := 0 }

/-- Outcome of scanning a whole row: either the scan ran to the end without
handing off a candidate payload, or it stopped at the first hand-off. -/
inductive ScanOutcome where
  | noFrame (s : FrameState)
  | frame (payload : List Nat) (s : FrameState)
deriving DecidableEq, Repr

/-- Runs the frame assembler over a list of descrambled bits, stopping at the
first hand-off exactly as the C `goto exit_decoder` does. -/
def runFrame : FrameState → List Nat → ScanOutcome
  | s, [] => .noFrame s
  | s, b :: rest =>
    match processBit s b with
    | .cont s1 => runFrame s1 rest
    | .handoff p s1 => .frame p s1

/-- The emitted record; `power_raw` and `energy_ws` are the integer numerators
the C code divides by `10.0` and by `1000.0 * 3600.0` respectively. -/
structure TelemetryRecord where
  id : Nat
  power_raw : Nat
  energy_ws : Nat
deriving DecidableEq, Repr

/-- The `uint64_t energy` value assembled by `ec3_decode_row` from payload
bytes 33-35 (high part) and 12-15 (low part). -/
def ec3k_energy (pb : List Nat) : Nat :=
  let ehigh := (((pb.getD 33 0 &&& 0x0f) <<< 12) ||| (pb.getD 34 0 <<< 4)) ||| (pb.getD 35 0 >>> 4)
  ((((ehigh <<< 28) ||| (pb.getD 12 0 <<< 20)) ||| (pb.getD 13 0 <<< 12)) |||
      (pb.getD 14 0 <<< 4)) ||| (pb.getD 15 0 >>> 4)

/-- The four padding fields `pad_1` (nibbles 9-12), `pad_2` (17-23),
`pad_3` (62-66) and `pad_4` (77) are all zero. -/
def pads_zero (pb : List Nat) : Prop :=
  unpack_nibbles pb 9 4 = 0 ∧ unpack_nibbles pb 17 7 = 0 ∧
    unpack_nibbles pb 62 5 = 0 ∧ unpack_nibbles pb 77 1 = 0

instance (pb : List Nat) : Decidable (pads_zero pb) := by
  unfold pads_zero; infer_instance

/-- The embedded CRC, assembled little-endian from nibbles 78-79 (low byte)
and 80-81 (high byte). -/
def received_crc (pb : List Nat) : Nat :=
  unpack_nibbles pb 78 2 ||| (unpack_nibbles pb 80 2 <<< 8)

/-- Field extraction and validation applied to a handed-off candidate payload
(the body of the `packet && packetpos == DECODED_PAKET_LEN_BYTES` block):
emit a record exactly when all four pads are zero and the CRC over payload
bytes 0..38 equals the embedded little-endian CRC. -/
def extractRecord (pb : List Nat) : Option TelemetryRecord :=
  if pads_zero pb ∧ calc_ec3k_crc (pb.take 39) = received_crc pb then
    some { id := unpack_nibbles pb 1 4,
           power_raw := unpack_nibbles pb 31 4,
           energy_ws := ec3k_energy pb }
  else none

/-- C `ec3_decode_row`: scan the descrambled bits of the row; on the first
hand-off, validate and possibly emit; otherwise no record. -/
def ec3_decode_row (row : List Bool) : Option TelemetryRecord :=
  match runFrame initState (outs row) with
  | .frame p _ => extractRecord p
  | .noFrame _ => none

/-- Pulse metadata handed in by the demodulator.  `sample_rate` is the sample
rate in samples per second; `diffFreq` models the integer value
`(int32_t)(freq2_hz - freq1_hz + 0.5f)` computed by `ec3k_decode` (the float
rounding itself is outside the embedding). -/
structure PulseData where
  sample_rate : Nat
  diffFreq : Int
deriving DecidableEq, Repr

/-- The bit buffer handed in by the dispatcher: number of rows and the first
row (`bits_per_row[0]` is the length of `row0`). -/
structure BitBuffer where
  num_rows : Nat
  row0 : List Bool
deriving DecidableEq, Repr

/-- C `ec3k_decode`: pre-filter on row count, row length scaled by sample
rate (PAKET_MIN_BITS = 90, PAKET_MAX_BITS = 90 * 5 / 2) and frequency
separation, then decode the single row. -/
def ec3k_decode (bb : BitBuffer) (pulses : PulseData) : Option TelemetryRecord :=
  if bb.num_rows ≠ 1 ∨
      bb.row0.length < 90 * pulses.sample_rate / 200000 ∨
      bb.row0.length > 90 * 5 / 2 * pulses.sample_rate / 200000 ∨
      pulses.diffFreq < 20000 ∨ pulses.diffFreq > 110000 then
    none
  else
    ec3_decode_row bb.row0

/-- Builds an NRZI symbol sequence whose descrambled scan bits equal a given
list `d`: after 17 zero warm-up symbols, the symbol at each index `n` is the
desired scan bit XOR the symbols at the descrambler taps `n - 12` and
`n - 17`.  Used only to construct concrete witness rows. -/
def buildSymbols : List Nat → List Nat → List Nat
  | ss, [] => ss
  | ss, d :: ds =>
      buildSymbols (ss ++ [(d ^^^ ss.getD (ss.length - 12) 0) ^^^ ss.getD (ss.length - 17) 0]) ds

/-- Converts an NRZI symbol sequence back to a level row: symbol `1` keeps
the previous level, symbol `0` flips it (implicit previous level `0`). -/
def symsToLevels : Nat → List Nat → List Bool
  | _, [] => []
  | prev, sym :: rest =>
      let cur := if sym = 1 then prev else 1 - prev
      (cur == 1) :: symsToLevels cur rest

/-- A level row whose descrambled scan stream is exactly `d`. -/
def mkRow (d : List Nat) : List Bool :=
  symsToLevels 0 (buildSymbols (List.replicate 17 0) d)

/-- Descrambled stream carrying one opening flag, 41 all-zero payload bytes
and a closing flag. -/
def acceptOuts : List Nat :=
  ([1, 1, 1, 1, 1, 1, 0] ++ List.replicate 328 0) ++ [1, 1, 1, 1, 1, 1, 0]

/-- A 359-bit level row whose scan hands off a 41-byte all-zero payload. -/
def acceptRow : List Bool := mkRow acceptOuts

/-- Descrambled stream with one opening flag followed by 809 zero data bits
(101 byte flushes inside the frame, no closing flag). -/
def overflowOuts : List Nat := [1, 1, 1, 1, 1, 1, 0] ++ List.replicate 809 0

/-- An 833-bit level row on which the frame assembler performs a packet
buffer write at index 100. -/
def overflowRow : List Bool := mkRow overflowOuts

/-- CRC byte update exactly as worded in the specification (the refinement
partner of the code-level `update_ec3k_crc`). -/
def spec_crc_update (crc byte : Nat) : Nat :=
  let ch := byte ^^^ (crc &&& 0xff)
  let ch2 := ch ^^^ ((ch <<< 4) &&& 0xff)
  (((ch2 <<< 8) ||| (crc >>> 8)) ^^^ (ch2 >>> 4)) ^^^ (ch2 <<< 3)

/-- CRC over a byte list exactly as worded in the specification: running
value seeded with `0xFFFF`, per-byte update, final XOR with `0xFFFF`. -/
def spec_crc (buf : List Nat) : Nat :=
  (buf.foldl spec_crc_update 0xffff) ^^^ 0xffff

/-- Second line of the CRC byte update, `ch ^= (ch << 4) & 0xff`. -/
def ec3k_S (u : Nat) : Nat := u ^^^ ((u <<< 4) &&& 0xff)

/-- Linear mixing applied to the transformed byte inside the CRC step. -/
def ec3k_M (c : Nat) : Nat := ((c <<< 8) ^^^ (c >>> 4)) ^^^ (c <<< 3)

/-- High-byte image of `ec3k_M` on bytes; an involution on `[0, 256)`. -/
def ec3k_P (c : Nat) : Nat := c ^^^ (c >>> 5)

/-- Flips bit `k` of byte `i` of a buffer. -/
def flipBit (buf : List Nat) (i k : Nat) : List Nat :=
  buf.set i (buf.getD i 0 ^^^ (1 <<< k))

/-- Ghost log of the packet-buffer indexes written while scanning a row. -/
def scanWrites (row : List Bool) : List Nat :=
  match runFrame initState (outs row) with
  | .noFrame s => s.writes
  | .frame _ s => s.writes

/-- A 41-byte payload passing every check: 39 zero bytes followed by the
little-endian encoding of their CRC `0xAF90`. -/
def cPayload : List Nat := List.replicate 39 0 ++ [144, 175]

/-- Buffer soundness invariant of the frame assembler: the next write
position never exceeds the number of already-modelled buffer cells. -/
def BufInv (s : FrameState) : Prop := s.packetpos ≤ s.packetbuffer.length

/-! Generic bitwise helper lemmas. -/

theorem testBit_pow_mul (i a j : Nat) :
    (2 ^ i * a).testBit j = if j < i then false else a.testBit (j - i) := by
  have h := Nat.testBit_mul_pow_two_add a (Nat.two_pow_pos i) j
  simpa using h

theorem lor_eq_add_pow (i a b : Nat) (hb : b < 2 ^ i) :
    (2 ^ i * a) ||| b = 2 ^ i * a + b := by
  apply Nat.eq_of_testBit_eq
  intro j
  rw [Nat.testBit_mul_pow_two_add a hb j, Nat.testBit_or, testBit_pow_mul]
  by_cases h : j < i
  · simp [h]
  · have hbf : b.testBit j = false :=
      Nat.testBit_lt_two_pow
        (lt_of_lt_of_le hb (Nat.pow_le_pow_right (by norm_num) (Nat.le_of_not_lt h)))
    simp [h, hbf]

theorem xor_shiftRight (a b k : Nat) : (a ^^^ b) >>> k = (a >>> k) ^^^ (b >>> k) := by
  apply Nat.eq_of_testBit_eq
  intro i
  simp [Nat.testBit_shiftRight, Nat.testBit_xor]

theorem shiftRight_eq_zero_of_lt {a k : Nat} (h : a < 2 ^ k) : a >>> k = 0 := by
  rw [Nat.shiftRight_eq_div_pow]
  exact Nat.div_eq_of_lt h

theorem lor_eq_xor_low (x h : Nat) (hh : h < 256) : (x <<< 8) ||| h = (x <<< 8) ^^^ h := by
  apply Nat.eq_of_testBit_eq
  intro i
  rw [Nat.testBit_or, Nat.testBit_xor]
  by_cases hc : i < 8
  · have hx : (x <<< 8).testBit i = false := by
      simp [Nat.testBit_shiftLeft, show ¬(8 ≤ i) from by omega]
    simp [hx]
  · have hbf : h.testBit i = false :=
      Nat.testBit_lt_two_pow
        (lt_of_lt_of_le hh (by
          calc (256 : Nat) = 2 ^ 8 := by norm_num
          _ ≤ 2 ^ i := Nat.pow_le_pow_right (by norm_num) (by omega)))
    simp [hbf]

theorem and_255_mod (x : Nat) : x &&& 255 = x % 256 := by
  have h := Nat.and_pow_two_sub_one_eq_mod x 8
  norm_num at h
  exact h

theorem and_255_eq {x : Nat} (h : x < 256) : x &&& 255 = x := by
  rw [and_255_mod]; exact Nat.mod_eq_of_lt h

theorem and_65535_mod (x : Nat) : x &&& 65535 = x % 65536 := by
  have h := Nat.and_pow_two_sub_one_eq_mod x 16
  norm_num at h
  exact h

theorem and_65535_eq {x : Nat} (h : x < 65536) : x &&& 65535 = x := by
  rw [and_65535_mod]; exact Nat.mod_eq_of_lt h

theorem xor_lt_256 {a b : Nat} (ha : a < 256) (hb : b < 256) : a ^^^ b < 256 := by
  have h := Nat.xor_lt_two_pow (n := 8) (x := a) (y := b) (by simpa using ha) (by simpa using hb)
  simpa using h

theorem xor_lt_65536 {a b : Nat} (ha : a < 65536) (hb : b < 65536) : a ^^^ b < 65536 := by
  have h := Nat.xor_lt_two_pow (n := 16) (x := a) (y := b) (by simpa using ha) (by simpa using hb)
  simpa using h

theorem nat_xor_left_cancel {a b c : Nat} (h : a ^^^ b = a ^^^ c) : b = c := by
  have h2 := congrArg (fun t => a ^^^ t) h
  simpa [← Nat.xor_assoc] using h2

theorem nat_xor_left_comm (a b c : Nat) : a ^^^ (b ^^^ c) = b ^^^ (a ^^^ c) := by
  rw [← Nat.xor_assoc, Nat.xor_comm a b, Nat.xor_assoc]

theorem nat_xor_right_cancel {a b c : Nat} (h : b ^^^ a = c ^^^ a) : b = c := by
  have h2 := congrArg (fun t => t ^^^ a) h
  simpa [Nat.xor_assoc] using h2

/-! CRC step lemmas. -/

theorem update_ec3k_crc_lt (crc b : Nat) : update_ec3k_crc crc b < 65536 := by
  simp only [update_ec3k_crc]
  exact lt_of_le_of_lt Nat.and_le_right (by norm_num)

theorem and_255_lt (x : Nat) : x &&& 255 < 256 := by
  have h := Nat.and_le_right (n := x) (m := 255)
  omega

theorem ec3k_S_lt {u : Nat} (hu : u < 256) : ec3k_S u < 256 :=
  xor_lt_256 hu (and_255_lt _)

theorem crc_expr_lt {ch2 crc : Nat} (h2 : ch2 < 256) (hc : crc < 65536) :
    ((((ch2 <<< 8) ||| (crc >>> 8)) ^^^ (ch2 >>> 4)) ^^^ (ch2 <<< 3)) < 65536 := by
  have ha : ch2 <<< 8 < 65536 := by rw [Nat.shiftLeft_eq]; norm_num; omega
  have hb : crc >>> 8 < 65536 := by
    rw [Nat.shiftRight_eq_div_pow]; norm_num; omega
  have hor : (ch2 <<< 8) ||| (crc >>> 8) < 65536 := by
    have h := Nat.or_lt_two_pow (n := 16) (x := ch2 <<< 8) (y := crc >>> 8)
      (by simpa using ha) (by simpa using hb)
    simpa using h
  have hc4 : ch2 >>> 4 < 65536 := by rw [Nat.shiftRight_eq_div_pow]; norm_num; omega
  have hc3 : ch2 <<< 3 < 65536 := by rw [Nat.shiftLeft_eq]; norm_num; omega
  exact xor_lt_65536 (xor_lt_65536 hor hc4) hc3

theorem update_eq_spec {crc b : Nat} (hc : crc < 65536) (hb : b < 256) :
    update_ec3k_crc crc b = spec_crc_update crc b := by
  simp only [update_ec3k_crc, spec_crc_update]
  rw [and_65535_eq hc, and_255_eq hb]
  exact and_65535_eq (crc_expr_lt (ec3k_S_lt (xor_lt_256 hb (and_255_lt crc))) hc)

theorem spec_update_decomp {crc b : Nat} (hc : crc < 65536) (hb : b < 256) :
    spec_crc_update crc b = ec3k_M (ec3k_S (b ^^^ (crc &&& 255))) ^^^ (crc >>> 8) := by
  simp only [spec_crc_update, ec3k_M, ec3k_S]
  have hcrc8 : crc >>> 8 < 256 := by rw [Nat.shiftRight_eq_div_pow]; norm_num; omega
  rw [lor_eq_xor_low _ _ hcrc8]
  generalize ((b ^^^ (crc &&& 255)) ^^^ (((b ^^^ (crc &&& 255)) <<< 4) &&& 255)) = c
  simp [Nat.xor_assoc, Nat.xor_comm, nat_xor_left_comm]

theorem update_decomp {crc b : Nat} (hc : crc < 65536) (hb : b < 256) :
    update_ec3k_crc crc b = ec3k_M (ec3k_S (b ^^^ (crc &&& 255))) ^^^ (crc >>> 8) := by
  rw [update_eq_spec hc hb, spec_update_decomp hc hb]

theorem ec3k_S_invol : ∀ u < 256, ec3k_S (ec3k_S u) = u := by decide

theorem ec3k_P_of_M : ∀ c < 256, ec3k_P (ec3k_M c >>> 8) = c := by decide

theorem M_xor_high {c h : Nat} (hh : h < 256) :
    (ec3k_M c ^^^ h) >>> 8 = ec3k_M c >>> 8 := by
  rw [xor_shiftRight, shiftRight_eq_zero_of_lt (show h < 2 ^ 8 by simpa using hh),
    Nat.xor_zero]

theorem update_recover {crc b : Nat} (hc : crc < 65536) (hb : b < 256) :
    ec3k_P (update_ec3k_crc crc b >>> 8) = ec3k_S (b ^^^ (crc &&& 255)) := by
  have hcrc8 : crc >>> 8 < 256 := by rw [Nat.shiftRight_eq_div_pow]; norm_num; omega
  rw [update_decomp hc hb, M_xor_high hcrc8,
    ec3k_P_of_M _ (ec3k_S_lt (xor_lt_256 hb (and_255_lt crc)))]

theorem update_inj_byte {crc b1 b2 : Nat} (hc : crc < 65536) (h1 : b1 < 256) (h2 : b2 < 256)
    (he : update_ec3k_crc crc b1 = update_ec3k_crc crc b2) : b1 = b2 := by
  have e1 := congrArg (fun x => ec3k_P (x >>> 8)) he
  simp only at e1
  rw [update_recover hc h1, update_recover hc h2] at e1
  have u1lt : b1 ^^^ (crc &&& 255) < 256 := xor_lt_256 h1 (and_255_lt crc)
  have u2lt : b2 ^^^ (crc &&& 255) < 256 := xor_lt_256 h2 (and_255_lt crc)
  have e2 := congrArg ec3k_S e1
  rw [ec3k_S_invol _ u1lt, ec3k_S_invol _ u2lt] at e2
  exact nat_xor_right_cancel e2

theorem update_inj_crc {b c1 c2 : Nat} (hb : b < 256) (h1 : c1 < 65536) (h2 : c2 < 65536)
    (he : update_ec3k_crc c1 b = update_ec3k_crc c2 b) : c1 = c2 := by
  have e1 := congrArg (fun x => ec3k_P (x >>> 8)) he
  simp only at e1
  rw [update_recover h1 hb, update_recover h2 hb] at e1
  have u1lt : b ^^^ (c1 &&& 255) < 256 := xor_lt_256 hb (and_255_lt c1)
  have u2lt : b ^^^ (c2 &&& 255) < 256 := xor_lt_256 hb (and_255_lt c2)
  have e2 := congrArg ec3k_S e1
  rw [ec3k_S_invol _ u1lt, ec3k_S_invol _ u2lt] at e2
  have hl : c1 &&& 255 = c2 &&& 255 := nat_xor_left_cancel e2
  have e3 := he
  rw [update_decomp h1 hb, update_decomp h2 hb, hl] at e3
  have hh : c1 >>> 8 = c2 >>> 8 := nat_xor_left_cancel e3
  have d1 : c1 >>> 8 = c1 / 256 := by rw [Nat.shiftRight_eq_div_pow]
  have d2 : c2 >>> 8 = c2 / 256 := by rw [Nat.shiftRight_eq_div_pow]
  have m1 : c1 &&& 255 = c1 % 256 := and_255_mod c1
  have m2 : c2 &&& 255 = c2 % 256 := and_255_mod c2
  omega

theorem foldl_update_lt (l : List Nat) (c : Nat) (hc : c < 65536) :
    List.foldl update_ec3k_crc c l < 65536 := by
  induction l generalizing c with
  | nil => simpa using hc
  | cons b t ih => exact ih _ (update_ec3k_crc_lt c b)

theorem foldl_update_inj (l : List Nat) (hl : ∀ x ∈ l, x < 256) :
    ∀ c1 c2, c1 < 65536 → c2 < 65536 → c1 ≠ c2 →
      List.foldl update_ec3k_crc c1 l ≠ List.foldl update_ec3k_crc c2 l := by
  induction l with
  | nil => intro c1 c2 _ _ hne; simpa using hne
  | cons b t ih =>
    intro c1 c2 h1 h2 hne
    have hb : b < 256 := hl b (List.mem_cons_self b t)
    have ht : ∀ x ∈ t, x < 256 := fun x hx => hl x (List.mem_cons_of_mem b hx)
    simp only [List.foldl_cons]
    exact ih ht _ _ (update_ec3k_crc_lt c1 b) (update_ec3k_crc_lt c2 b)
      (fun h => hne (update_inj_crc hb h1 h2 h))

/-- C2: for every 39-byte sequence the code CRC (`calc_ec3k_crc`, with its
machine-width masks) equals the CRC described word-for-word in the
specification (`spec_crc`). -/
theorem calc_crc_matches_spec (buf : List Nat) (hlen : buf.length = 39)
    (hbytes : ∀ b ∈ buf, b < 256) : calc_ec3k_crc buf = spec_crc buf := by
  unfold calc_ec3k_crc spec_crc
  have main : ∀ (l : List Nat), (∀ b ∈ l, b < 256) → ∀ c, c < 65536 →
      List.foldl update_ec3k_crc c l = List.foldl spec_crc_update c l := by
    intro l
    induction l with
    | nil => intro _ c _; rfl
    | cons b t ih =>
      intro hl c hc
      have hb : b < 256 := hl b (List.mem_cons_self b t)
      have ht : ∀ x ∈ t, x < 256 := fun x hx => hl x (List.mem_cons_of_mem b hx)
      simp only [List.foldl_cons]
      rw [← update_eq_spec hc hb]
      exact ih ht _ (update_ec3k_crc_lt c b)
  rw [main buf hbytes 0xffff (by norm_num)]

/-- Witness for C2 at the all-zero 39-byte buffer. -/
theorem calc_crc_matches_spec_witness :
    calc_ec3k_crc (List.replicate 39 0) = spec_crc (List.replicate 39 0) :=
  calc_crc_matches_spec (List.replicate 39 0) (by simp)
    (by intro b hb; rw [List.eq_of_mem_replicate hb]; norm_num)

/-- C9: the CRC over 39-byte buffers is a pure function of its input, and
flipping any single bit of the input changes the resulting CRC value. -/
theorem crc_pure_and_bitflip_sensitive (buf : List Nat) (i k : Nat)
    (hlen : buf.length = 39) (hbytes : ∀ b ∈ buf, b < 256) (hi : i < 39) (hk : k < 8) :
    (∀ buf2 : List Nat, buf2 = buf → calc_ec3k_crc buf2 = calc_ec3k_crc buf) ∧
      calc_ec3k_crc (flipBit buf i k) ≠ calc_ec3k_crc buf := by
  refine ⟨fun buf2 h => by rw [h], ?_⟩
  have hilen : i < buf.length := by omega
  have hgetD : buf.getD i 0 = buf[i] := by
    rw [List.getD_eq_getElem?_getD, List.getElem?_eq_getElem hilen]
    rfl
  have hflip : flipBit buf i k = buf.take i ++ (buf[i] ^^^ (1 <<< k)) :: buf.drop (i + 1) := by
    rw [flipBit, hgetD, List.set_eq_take_cons_drop _ hilen]
  have hbuf : buf.take i ++ buf[i] :: buf.drop (i + 1) = buf := by
    conv_rhs => rw [← List.take_append_drop i buf]
    rw [List.drop_eq_getElem_cons hilen]
  have hb : buf[i] < 256 := hbytes _ (List.getElem_mem hilen)
  have hm : (1 <<< k) < 256 := by
    rw [Nat.shiftLeft_eq, Nat.one_mul]
    calc 2 ^ k < 2 ^ 8 := Nat.pow_lt_pow_right (by norm_num) hk
    _ = 256 := by norm_num
  have hb2 : buf[i] ^^^ (1 <<< k) < 256 := xor_lt_256 hb hm
  have hbne : buf[i] ^^^ (1 <<< k) ≠ buf[i] := by
    intro h
    have h0 : buf[i] ^^^ (1 <<< k) = buf[i] ^^^ 0 := by simpa using h
    have := nat_xor_left_cancel h0
    have hpos : 0 < 1 <<< k := by rw [Nat.shiftLeft_eq, Nat.one_mul]; exact Nat.two_pow_pos k
    omega
  have hc0 : List.foldl update_ec3k_crc 0xffff (buf.take i) < 65536 :=
    foldl_update_lt _ _ (by norm_num)
  have hsuf : ∀ x ∈ buf.drop (i + 1), x < 256 := fun x hx =>
    hbytes x (List.drop_subset _ _ hx)
  intro h
  unfold calc_ec3k_crc at h
  rw [hflip] at h
  conv_rhs at h => rw [← hbuf]
  rw [List.foldl_append, List.foldl_append, List.foldl_cons, List.foldl_cons] at h
  have h2 := nat_xor_right_cancel h
  refine foldl_update_inj (buf.drop (i + 1)) hsuf _ _
    (update_ec3k_crc_lt _ _) (update_ec3k_crc_lt _ _) ?_ h2
  intro he
  exact hbne (update_inj_byte hc0 hb2 hb he)

/-- Witness for C9: flipping bit 3 of byte 10 of the all-zero buffer changes
the CRC. -/
theorem crc_pure_and_bitflip_sensitive_witness :
    calc_ec3k_crc (flipBit (List.replicate 39 0) 10 3) ≠ calc_ec3k_crc (List.replicate 39 0) :=
  (crc_pure_and_bitflip_sensitive (List.replicate 39 0) 10 3 (by simp)
    (by intro b hb; rw [List.eq_of_mem_replicate hb]; norm_num)
    (by norm_num) (by norm_num)).2

/-- C3: behaviour of the frame assembler on a 0 bit.  After fewer than 5
ones the 0 is shifted into the register as a data bit; after exactly 5 ones
it is consumed and discarded (state unchanged except the run counter);
after exactly 6 ones the inside-frame state toggles (or, when a 41-byte
inside payload closes, scanning stops with the hand-off); and every 0 bit
that continues the scan resets the run-of-ones counter to 0. -/
theorem zero_bit_unstuffing (s : FrameState) :
    (s.onecount < 5 →
      ∃ s1, processBit s 0 = .cont s1 ∧ s1.recbyte = s.recbyte >>> 1 ∧
        s1.onecount = 0 ∧ s1.packet = s.packet) ∧
    (s.onecount = 5 → processBit s 0 = .cont { s with onecount := 0 }) ∧
    (s.onecount = 6 → ¬(s.packet = true ∧ s.packetpos = 41) →
      processBit s 0 =
        .cont { s with packet := !s.packet, recpos := 0, packetpos := 0, onecount := 0 }) ∧
    (s.onecount = 6 → s.packet = true → s.packetpos = 41 →
      processBit s 0 = .handoff (s.packetbuffer.take 41) s) ∧
    (∀ s1, processBit s 0 = .cont s1 → s1.onecount = 0)
    := by
  refine ⟨?_, ?_, ?_, ?_, ?_⟩
  · intro h5
    by_cases hf : s.recpos = 7 ∧ s.packet = true
    · have hres : processBit s 0 =
          .cont { s with recbyte := s.recbyte >>> 1,
                         recpos := 0,
                         packetbuffer := writeAt s.packetbuffer s.packetpos (s.recbyte >>> 1),
                         writes := s.packetpos :: s.writes,
                         packetpos := s.packetpos + 1,
                         onecount := 0 } := by
        simp [processBit, pushByte, hf.1, hf.2, show s.onecount ≠ 6 by omega, h5]
      exact ⟨_, hres, rfl, rfl, rfl⟩
    · have hres : processBit s 0 =
          .cont { s with recbyte := s.recbyte >>> 1,
                         recpos := s.recpos + 1,
                         onecount := 0 } := by
        simp [processBit, hf, show s.onecount ≠ 6 by omega, h5]
      exact ⟨_, hres, rfl, rfl, rfl⟩
  · intro h5
    simp [processBit, h5]
  · intro h6 hnp
    simp [processBit, h6, hnp]
  · intro h6 hp h41
    simp [processBit, h6, hp, h41]
  · intro s1 hcont
    simp only [processBit, if_neg (by omega : ¬(0 : Nat) ≠ 0)] at hcont
    by_cases h5 : s.onecount < 5
    · rw [if_pos h5] at hcont
      by_cases hf : s.recpos = 7 ∧ s.packet = true
      · simp [pushByte, hf.1, hf.2, show s.onecount ≠ 6 by omega] at hcont
        rw [← hcont]
      · simp [hf, show s.onecount ≠ 6 by omega] at hcont
        rw [← hcont]
    · rw [if_neg h5] at hcont
      by_cases h6 : s.onecount = 6
      · rw [if_pos h6] at hcont
        by_cases hp : s.packet = true ∧ s.packetpos = 41
        · rw [if_pos ⟨hp.1, hp.2⟩] at hcont
          exact absurd hcont (by simp)
        · rw [if_neg (fun hc => hp ⟨hc.1, hc.2⟩)] at hcont
          have := StepResult.cont.inj hcont
          rw [← this]
      · rw [if_neg h6] at hcont
        have := StepResult.cont.inj hcont
        rw [← this]

/-- Witness for C3 at a concrete state with a run of exactly 5 ones: the 0
bit is discarded and only the run counter resets. -/
theorem zero_bit_unstuffing_witness :
    processBit ⟨false, 5, 7, 3, 2, [], []⟩ 0 = .cont ⟨false, 0, 7, 3, 2, [], []⟩ :=
  (zero_bit_unstuffing ⟨false, 5, 7, 3, 2, [], []⟩).2.1 rfl

/-- C7 counterexample: a 0 bit after a run of 7 ones does not perform the
flag action (the inside-frame state is left alone), although after a run of
exactly 6 ones it does toggle the state. -/
theorem long_run_flag_counterexample :
    processBit ⟨false, 7, 0, 0, 0, [], []⟩ 0 ≠ processBit ⟨false, 6, 0, 0, 0, [], []⟩ 0 ∧
    processBit ⟨false, 6, 0, 0, 0, [], []⟩ 0 = .cont ⟨true, 0, 0, 0, 0, [], []⟩ ∧
    processBit ⟨false, 7, 0, 0, 0, [], []⟩ 0 = .cont ⟨false, 0, 0, 0, 0, [], []⟩ := by
  refine ⟨?_, by decide, by decide⟩
  decide

/-- C7 amended: a 0 bit terminating a run of more than 6 ones performs no
flag action and no data shift at all; it only resets the run counter. -/
theorem long_run_only_resets (s : FrameState) (h : 6 < s.onecount) :
    processBit s 0 = .cont { s with onecount := 0 } := by
  simp [processBit, show ¬s.onecount < 5 by omega, show s.onecount ≠ 6 by omega]

/-- Witness for the amended C7 at a concrete state with a run of 9 ones. -/
theorem long_run_only_resets_witness :
    processBit ⟨false, 9, 0, 0, 0, [], []⟩ 0 = .cont ⟨false, 0, 0, 0, 0, [], []⟩ :=
  long_run_only_resets ⟨false, 9, 0, 0, 0, [], []⟩ (by norm_num)

/-- C4: the descrambled bit consumed by the frame assembler at scan index
`i` (position `i - 17` of the consumed stream) is
`symbol(17) XOR symbol(5)` at `i = 17` and
`symbol(i) XOR symbol(i-12) XOR symbol(i-17)` for `i > 17`; moreover the
stream has exactly `row_bits - 17` entries, so indices below 17 are never
consumed. -/
theorem consumed_bit_formula (row : List Bool) (i : Nat) (h17 : 17 ≤ i)
    (hlt : i < row.length) :
    (outs row).getD (i - 17) 2 =
      (if i = 17 then symbol_at row 17 ^^^ symbol_at row 5
       else (symbol_at row i ^^^ symbol_at row (i - 12)) ^^^ symbol_at row (i - 17)) ∧
    (outs row).length = row.length - 17 := by
  have hlen : (outs row).length = row.length - 17 := by
    simp [outs]
  refine ⟨?_, hlen⟩
  have hidx : i - 17 < (outs row).length := by omega
  rw [List.getD_eq_getElem?_getD, List.getElem?_eq_getElem hidx]
  have hr : i - 17 < (List.range' 17 (row.length - 17)).length := by simp; omega
  have : (outs row)[i - 17] = out_at row (17 + (i - 17)) := by
    simp [outs]
  rw [this, show 17 + (i - 17) = i from by omega]
  simp only [Option.getD_some]
  by_cases hi : i = 17
  · subst hi
    simp [out_at]
  · have hgt : i > 17 := by omega
    simp only [out_at, if_pos hgt, if_pos (show i > 12 by omega)]
    simp [if_neg hi, Nat.xor_assoc, Nat.xor_comm, nat_xor_left_comm]

/-- Witness for C4 on a concrete 20-bit row at scan index 18. -/
theorem consumed_bit_formula_witness :
    (outs (List.replicate 20 true)).getD 1 2 =
      (if 18 = 17 then symbol_at (List.replicate 20 true) 17 ^^^ symbol_at (List.replicate 20 true) 5
       else (symbol_at (List.replicate 20 true) 18 ^^^ symbol_at (List.replicate 20 true) 6) ^^^
         symbol_at (List.replicate 20 true) 1) ∧
    (outs (List.replicate 20 true)).length = (List.replicate 20 true).length - 17 :=
  consumed_bit_formula (List.replicate 20 true) 18 (by norm_num) (by simp)

/-- C8: the pre-filter of `ec3k_decode` rejects, producing no record, as
soon as the row count differs from 1, the row length lies outside
`[90 * sample_rate / 200000, 225 * sample_rate / 200000]`, or the frequency
separation lies outside `[20000, 110000]` Hz. -/
theorem out_of_range_rejected (bb : BitBuffer) (pulses : PulseData)
    (h : bb.num_rows ≠ 1 ∨
      bb.row0.length < 90 * pulses.sample_rate / 200000 ∨
      bb.row0.length > 225 * pulses.sample_rate / 200000 ∨
      pulses.diffFreq < 20000 ∨ pulses.diffFreq > 110000) :
    ec3k_decode bb pulses = none := by
  rw [ec3k_decode, if_pos]
  rcases h with h | h | h | h | h
  · exact Or.inl h
  · exact Or.inr (Or.inl h)
  · refine Or.inr (Or.inr (Or.inl ?_))
    have : 90 * 5 / 2 * pulses.sample_rate / 200000 = 225 * pulses.sample_rate / 200000 := by
      norm_num
    omega
  · exact Or.inr (Or.inr (Or.inr (Or.inl h)))
  · exact Or.inr (Or.inr (Or.inr (Or.inr h)))

/-- Witness for C8: a two-row buffer is rejected. -/
theorem out_of_range_rejected_witness :
    ec3k_decode { num_rows := 2, row0 := [] } { sample_rate := 200000, diffFreq := 50000 } = none :=
  out_of_range_rejected _ _ (Or.inl (by norm_num))

theorem bufInv_pushByte {s : FrameState} (h : BufInv s) : BufInv (pushByte s) := by
  unfold BufInv pushByte writeAt at *
  by_cases hc : s.packetpos < s.packetbuffer.length
  · simp [hc]; omega
  · simp [hc]; omega

theorem processBit_cont_inv {s : FrameState} {b : Nat} {s1 : FrameState} (h : BufInv s)
    (hc : processBit s b = .cont s1) : BufInv s1 := by
  simp only [processBit] at hc
  split_ifs at hc <;> cases hc <;>
    first
      | exact bufInv_pushByte h
      | exact h
      | exact Nat.zero_le _


theorem processBit_handoff_len {s : FrameState} {b : Nat} {p : List Nat} {s1 : FrameState}
    (h : BufInv s) (hc : processBit s b = .handoff p s1) : p.length = 41 := by
  simp only [processBit] at hc
  split_ifs at hc <;> try (cases hc)
  all_goals
    first
      | (exfalso; simp_all [pushByte]; done)
      | (obtain ⟨-, h41⟩ := ‹s.packet = true ∧ s.packetpos = 41›
         have hlen : s.packetpos ≤ s.packetbuffer.length := h
         simp [List.length_take]
         omega)

theorem runFrame_frame_len : ∀ (l : List Nat) (s : FrameState), BufInv s →
    ∀ {p s1}, runFrame s l = .frame p s1 → p.length = 41 := by
  intro l
  induction l with
  | nil => intro s _ p s1 hr; simp [runFrame] at hr
  | cons b t ih =>
    intro s hs p s1 hr
    simp only [runFrame] at hr
    cases hpb : processBit s b with
    | cont s2 =>
      rw [hpb] at hr
      exact ih s2 (processBit_cont_inv hs hpb) hr
    | handoff q s2 =>
      rw [hpb] at hr
      simp only [ScanOutcome.frame.injEq] at hr
      obtain ⟨hq, _⟩ := hr
      rw [← hq]
      exact processBit_handoff_len hs hpb

/-- C1: a record is emitted for a level row if and only if the scan hands
off a flag-closed candidate payload of exactly 41 bytes whose four padding
fields are zero and whose CRC over bytes 0..38 equals the embedded
little-endian CRC; on any failure the decode produces no record at all. -/
theorem record_iff_valid_frame (row : List Bool) :
    (∃ rec, ec3_decode_row row = some rec) ↔
      ∃ p s, runFrame initState (outs row) = .frame p s ∧ p.length = 41 ∧
        pads_zero p ∧ calc_ec3k_crc (p.take 39) = received_crc p := by
  constructor
  · intro hex
    obtain ⟨rec, hrec⟩ := hex
    unfold ec3_decode_row at hrec
    cases hr : runFrame initState (outs row) with
    | noFrame s => rw [hr] at hrec; simp at hrec
    | frame p s =>
      rw [hr] at hrec
      simp only [] at hrec
      have hlen : p.length = 41 := runFrame_frame_len _ _ (show BufInv initState by simp [BufInv, initState]) hr
      by_cases hok : pads_zero p ∧ calc_ec3k_crc (p.take 39) = received_crc p
      · exact ⟨p, s, rfl, hlen, hok.1, hok.2⟩
      · rw [extractRecord, if_neg hok] at hrec
        simp at hrec
  · intro hex
    obtain ⟨p, s, hr, hlen, hpad, hcrc⟩ := hex
    unfold ec3_decode_row
    rw [hr]
    refine ⟨⟨unpack_nibbles p 1 4, unpack_nibbles p 31 4, ec3k_energy p⟩, ?_⟩
    show extractRecord p = _
    unfold extractRecord
    rw [if_pos ⟨hpad, hcrc⟩]

theorem bit_at_append (row ext : List Bool) (j : Nat) (hj : j < row.length) :
    bit_at (row ++ ext) j = bit_at row j := by
  unfold bit_at
  rw [List.getD_append _ _ _ _ hj]

theorem symbol_at_append (row ext : List Bool) (j : Nat) (hj : j < row.length) :
    symbol_at (row ++ ext) j = symbol_at row j := by
  simp only [symbol_at]
  rw [bit_at_append _ _ _ hj]
  by_cases h0 : j > 0
  · simp [h0, bit_at_append _ _ _ (show j - 1 < row.length by omega)]
  · simp [h0]

theorem out_at_append (row ext : List Bool) (i : Nat) (hi : i < row.length) :
    out_at (row ++ ext) i = out_at row i := by
  simp only [out_at]
  rw [symbol_at_append _ _ _ hi]
  by_cases h17 : i > 17 <;> by_cases h12 : i > 12 <;>
    simp [h17, h12, symbol_at_append _ ext _ (show i - 17 < row.length by omega),
      symbol_at_append _ ext _ (show i - 12 < row.length by omega)]

theorem outs_append (row ext : List Bool) :
    ∃ tail, outs (row ++ ext) = outs row ++ tail := by
  by_cases hlen : 17 ≤ row.length
  · obtain ⟨r, hr⟩ : ∃ r, (row ++ ext).length - 17 = r + (row.length - 17) :=
      ⟨(row ++ ext).length - 17 - (row.length - 17), by simp; omega⟩
    refine ⟨(List.range' (17 + (row.length - 17)) r).map (out_at (row ++ ext)), ?_⟩
    unfold outs
    rw [hr, ← List.range'_append_1, List.map_append]
    congr 1
    apply List.map_congr_left
    intro i hi
    rw [List.mem_range'] at hi
    obtain ⟨k, hk, hik⟩ := hi
    exact out_at_append _ _ _ (by omega)
  · refine ⟨outs (row ++ ext), ?_⟩
    have h0 : outs row = [] := by
      simp [outs, show row.length - 17 = 0 by omega]
    simp [h0]

theorem runFrame_append (l1 l2 : List Nat) :
    ∀ s p s1, runFrame s l1 = .frame p s1 → runFrame s (l1 ++ l2) = .frame p s1 := by
  induction l1 with
  | nil => intro s p s1 h; simp [runFrame] at h
  | cons b t ih =>
    intro s p s1 h
    simp only [runFrame, List.cons_append] at h ⊢
    revert h
    cases hpb : processBit s b with
    | cont s2 => intro h; exact ih s2 p s1 h
    | handoff q s2 => intro h; exact h

/-- C5: scanning stops at the first flag that closes an inside-frame
payload of exactly 41 bytes: whatever bits follow, the decode result of the
extended row is field-extraction of that first payload (even when its
checks fail), so no later frame in the row is ever evaluated, and the
`Option` result yields at most one record per row. -/
theorem first_frame_decides_row (row ext : List Bool) (p : List Nat) (s : FrameState)
    (h : runFrame initState (outs row) = .frame p s) :
    ec3_decode_row (row ++ ext) = extractRecord p ∧ ec3_decode_row row = extractRecord p := by
  obtain ⟨tail, htail⟩ := outs_append row ext
  constructor
  · unfold ec3_decode_row
    rw [htail, runFrame_append _ _ _ _ _ h]
  · unfold ec3_decode_row
    rw [h]

theorem xor_lt_two {a b : Nat} (ha : a < 2) (hb : b < 2) : a ^^^ b < 2 := by
  interval_cases a <;> interval_cases b <;> decide

theorem getD_lt_two {l : List Nat} (hl : ∀ x ∈ l, x < 2) (j : Nat) : l.getD j 0 < 2 := by
  by_cases hj : j < l.length
  · rw [List.getD_eq_getElem _ _ hj]
    exact hl _ (List.getElem_mem hj)
  · rw [List.getD_eq_default _ _ (by omega)]
    norm_num

theorem symsToLevels_length : ∀ (ss : List Nat) (prev : Nat),
    (symsToLevels prev ss).length = ss.length := by
  intro ss
  induction ss with
  | nil => intro prev; rfl
  | cons s t ih => intro prev; simp [symsToLevels, ih]

theorem buildSymbols_length : ∀ (d ss : List Nat),
    (buildSymbols ss d).length = ss.length + d.length := by
  intro d
  induction d with
  | nil => intro ss; simp [buildSymbols]
  | cons x d2 ih =>
    intro ss
    rw [buildSymbols, ih]
    simp
    omega

theorem buildSymbols_keep : ∀ (d ss : List Nat) (j : Nat), j < ss.length →
    (buildSymbols ss d).getD j 0 = ss.getD j 0 := by
  intro d
  induction d with
  | nil => intro ss j _; rfl
  | cons x d2 ih =>
    intro ss j hj
    rw [buildSymbols, ih _ _ (by simp; omega)]
    rw [List.getD_append _ _ _ _ hj]

theorem buildSymbols_entries : ∀ (d ss : List Nat), (∀ x ∈ ss, x < 2) → (∀ x ∈ d, x < 2) →
    ∀ x ∈ buildSymbols ss d, x < 2 := by
  intro d
  induction d with
  | nil => intro ss hss _ x hx; exact hss x hx
  | cons y d2 ih =>
    intro ss hss hd x hx
    rw [buildSymbols] at hx
    refine ih _ ?_ (fun z hz => hd z (List.mem_cons_of_mem _ hz)) x hx
    intro z hz
    rcases List.mem_append.mp hz with hz1 | hz2
    · exact hss z hz1
    · rw [List.mem_singleton.mp hz2]
      exact xor_lt_two (xor_lt_two (hd y (List.mem_cons_self y d2)) (getD_lt_two hss _))
        (getD_lt_two hss _)

theorem buildSymbols_step : ∀ (d ss : List Nat) (k : Nat), 17 ≤ ss.length → k < d.length →
    (buildSymbols ss d).getD (ss.length + k) 0 =
      (d.getD k 0 ^^^ (buildSymbols ss d).getD (ss.length + k - 12) 0) ^^^
        (buildSymbols ss d).getD (ss.length + k - 17) 0 := by
  intro d
  induction d with
  | nil => intro ss k _ hk; simp at hk
  | cons x d2 ih =>
    intro ss k hss hk
    cases k with
    | zero =>
      rw [buildSymbols]
      have hv : (ss ++ [(x ^^^ ss.getD (ss.length - 12) 0) ^^^ ss.getD (ss.length - 17) 0]).getD
          ss.length 0 = (x ^^^ ss.getD (ss.length - 12) 0) ^^^ ss.getD (ss.length - 17) 0 := by
        rw [List.getD_append_right _ _ _ _ (Nat.le_refl _)]
        simp
      rw [Nat.add_zero]
      rw [buildSymbols_keep _ _ _ (by simp), hv]
      rw [buildSymbols_keep _ _ _ (by simp; omega), buildSymbols_keep _ _ _ (by simp; omega)]
      rw [List.getD_append _ _ _ _ (by omega), List.getD_append _ _ _ _ (by omega)]
      simp
    | succ k2 =>
      rw [buildSymbols]
      have hlen2 : (ss ++ [(x ^^^ ss.getD (ss.length - 12) 0) ^^^ ss.getD (ss.length - 17) 0]).length
          = ss.length + 1 := by simp
      have harith : ss.length + (k2 + 1) = (ss.length + 1) + k2 := by omega
      rw [harith, ← hlen2]
      rw [ih _ _ (by simp; omega) (by simpa using hk)]
      simp

theorem symcmp : ∀ (ss : List Nat) (prev : Nat), prev < 2 → (∀ x ∈ ss, x < 2) →
    ∀ j, j < ss.length →
      (if (if j = 0 then prev else bit_at (symsToLevels prev ss) (j - 1)) =
          bit_at (symsToLevels prev ss) j then 1 else 0) = ss.getD j 0 := by
  intro ss
  induction ss with
  | nil => intro prev _ _ j hj; simp at hj
  | cons s t ih =>
    intro prev hprev hss j hj
    have hs2 : s < 2 := hss s (List.mem_cons_self s t)
    have hcur2 : (if s = 1 then prev else 1 - prev) < 2 := by split <;> omega
    have hhead : bit_at (symsToLevels prev (s :: t)) 0 = (if s = 1 then prev else 1 - prev) := by
      simp only [symsToLevels, bit_at, List.getD_cons_zero]
      rcases (by omega : (if s = 1 then prev else 1 - prev) = 0 ∨ (if s = 1 then prev else 1 - prev) = 1) with hc | hc <;> simp [hc]
    cases j with
    | zero =>
      rw [if_pos rfl, hhead, List.getD_cons_zero]
      by_cases hs1 : s = 1
      · simp [hs1]
      · have hs0 : s = 0 := by omega
        subst hs0
        rw [if_neg (by norm_num : ¬(0 : Nat) = 1), if_neg (by omega : ¬prev = 1 - prev)]
    | succ j2 =>
      have htail : ∀ i, bit_at (symsToLevels prev (s :: t)) (i + 1) =
          bit_at (symsToLevels (if s = 1 then prev else 1 - prev) t) i := by
        intro i
        simp [symsToLevels, bit_at]
      have hprevbit : (if j2 + 1 = 0 then prev else bit_at (symsToLevels prev (s :: t)) (j2 + 1 - 1)) =
          (if j2 = 0 then (if s = 1 then prev else 1 - prev)
           else bit_at (symsToLevels (if s = 1 then prev else 1 - prev) t) (j2 - 1)) := by
        cases j2 with
        | zero =>
          rw [if_neg (by omega : ¬(0 + 1 = 0)), if_pos rfl]
          simpa using hhead
        | succ j3 =>
          rw [if_neg (by omega : ¬(j3 + 1 + 1 = 0)), if_neg (by omega : ¬(j3 + 1 = 0))]
          rw [show j3 + 1 + 1 - 1 = j3 + 1 from by omega]
          rw [htail j3]
          rw [show j3 + 1 - 1 = j3 from by omega]
      rw [hprevbit, htail j2, List.getD_cons_succ]
      exact ih _ hcur2 (fun z hz => hss z (List.mem_cons_of_mem _ hz)) j2 (by simpa using hj)

theorem symbol_at_symsToLevels (ss : List Nat) (hss : ∀ x ∈ ss, x < 2) (j : Nat)
    (hj : j < ss.length) : symbol_at (symsToLevels 0 ss) j = ss.getD j 0 := by
  have h := symcmp ss 0 (by norm_num) hss j hj
  simp only [symbol_at]
  by_cases h0 : j = 0
  · rw [h0] at h ⊢
    simpa using h
  · rw [if_neg h0] at h
    simp only [show j > 0 from by omega, if_pos]
    exact h

theorem getD_replicate17 (j : Nat) : (List.replicate 17 (0 : Nat)).getD j 0 = 0 := by
  by_cases hj : j < 17
  · interval_cases j <;> rfl
  · rw [List.getD_eq_default _ _ (by simpa using hj)]

theorem outs_mkRow (d : List Nat) (hd : ∀ x ∈ d, x < 2) : outs (mkRow d) = d := by
  have hSSlen : (buildSymbols (List.replicate 17 0) d).length = 17 + d.length := by
    rw [buildSymbols_length]
    simp
  have hSSent : ∀ x ∈ buildSymbols (List.replicate 17 0) d, x < 2 :=
    buildSymbols_entries d _ (by intro x hx; rw [List.eq_of_mem_replicate hx]; norm_num) hd
  have hrowlen : (mkRow d).length = 17 + d.length := by
    rw [mkRow, symsToLevels_length, hSSlen]
  have houtlen : (outs (mkRow d)).length = d.length := by
    simp [outs, hrowlen]
  have hsym : ∀ j, j < 17 + d.length →
      symbol_at (mkRow d) j = (buildSymbols (List.replicate 17 0) d).getD j 0 := by
    intro j hj
    rw [mkRow]
    exact symbol_at_symsToLevels _ hSSent j (by omega)
  have hpre : ∀ j, j < 17 →
      (buildSymbols (List.replicate 17 0) d).getD j 0 = 0 := by
    intro j hj
    rw [buildSymbols_keep _ _ _ (by simpa using hj), getD_replicate17]
  apply List.ext_getElem (by rw [houtlen])
  intro k hk1 hk2
  have hkd : k < d.length := by omega
  have hout : (outs (mkRow d))[k] = out_at (mkRow d) (17 + k) := by
    simp [outs]
  rw [hout]
  have hstep := buildSymbols_step d (List.replicate 17 0) k (by simp) hkd
  rw [show (List.replicate 17 (0:Nat)).length = 17 from by simp] at hstep
  have hdk : d[k] = d.getD k 0 := by
    rw [List.getD_eq_getElem _ _ hkd]
  rw [hdk]
  cases k with
  | zero =>
    simp only [out_at, Nat.add_zero]
    rw [if_neg (by omega : ¬(17 : Nat) > 17), if_pos (by omega : (17 : Nat) > 12)]
    rw [hsym 17 (by omega), hsym 5 (by omega)]
    rw [show (17 : Nat) + 0 - 17 = 0 from by norm_num,
      show (17 : Nat) + 0 = 17 from by norm_num] at hstep
    rw [hstep, hpre 5 (by norm_num), hpre 0 (by norm_num)]
    simp
  | succ k2 =>
    simp only [out_at]
    rw [if_pos (by omega : 17 + (k2 + 1) > 17), if_pos (by omega : 17 + (k2 + 1) > 12)]
    rw [hsym (17 + (k2 + 1)) (by omega), hsym (17 + (k2 + 1) - 17) (by omega),
      hsym (17 + (k2 + 1) - 12) (by omega)]
    rw [hstep]
    generalize (buildSymbols (List.replicate 17 0) d).getD (17 + (k2 + 1) - 12) 0 = a
    generalize (buildSymbols (List.replicate 17 0) d).getD (17 + (k2 + 1) - 17) 0 = b
    generalize d.getD (k2 + 1) 0 = c
    rw [Nat.xor_assoc, Nat.xor_assoc]
    rw [show (b ^^^ (b ^^^ a)) = a from by rw [← Nat.xor_assoc, Nat.xor_self, Nat.zero_xor]]
    rw [Nat.xor_assoc, Nat.xor_self, Nat.xor_zero]

theorem acceptOuts_lt_two : ∀ x ∈ acceptOuts, x < 2 := by
  intro x hx
  simp only [acceptOuts, List.mem_append, List.mem_replicate] at hx
  rcases hx with (hx | hx) | hx
  · fin_cases hx <;> norm_num
  · omega
  · fin_cases hx <;> norm_num

theorem overflowOuts_lt_two : ∀ x ∈ overflowOuts, x < 2 := by
  intro x hx
  simp only [overflowOuts, List.mem_append, List.mem_replicate] at hx
  rcases hx with hx | hx
  · fin_cases hx <;> norm_num
  · omega

theorem outs_acceptRow : outs acceptRow = acceptOuts := by
  show outs (mkRow acceptOuts) = acceptOuts
  exact outs_mkRow acceptOuts acceptOuts_lt_two

theorem outs_overflowRow : outs overflowRow = overflowOuts := by
  show outs (mkRow overflowOuts) = overflowOuts
  exact outs_mkRow overflowOuts overflowOuts_lt_two

set_option maxHeartbeats 1000000 in
theorem runFrame_acceptOuts : runFrame initState acceptOuts =
    .frame (List.replicate 41 0)
      ⟨true, 6, 252, 6, 41, List.replicate 41 0, (List.range 41).reverse⟩ := by
  decide

/-- Witness for C5: the 359-bit row whose scan hands off a 41-byte all-zero
payload; appending further bits does not change the decode result (the
candidate here fails its CRC check, so both decodes yield nothing). -/
theorem first_frame_decides_row_witness :
    ec3_decode_row (acceptRow ++ [true]) = extractRecord (List.replicate 41 0) ∧
      ec3_decode_row acceptRow = extractRecord (List.replicate 41 0) :=
  first_frame_decides_row acceptRow [true] (List.replicate 41 0)
    ⟨true, 6, 252, 6, 41, List.replicate 41 0, (List.range 41).reverse⟩
    (by rw [outs_acceptRow]; exact runFrame_acceptOuts)

theorem scanWrites_congr (row : List Bool) (d : List Nat) (h : outs row = d) :
    scanWrites row = (match runFrame initState d with
      | .noFrame s => s.writes
      | .frame _ s => s.writes) := by
  unfold scanWrites
  rw [h]

theorem ec3k_decode_filter_pass (bb : BitBuffer) (pulses : PulseData)
    (h : ¬(bb.num_rows ≠ 1 ∨ bb.row0.length < 90 * pulses.sample_rate / 200000 ∨
        bb.row0.length > 90 * 5 / 2 * pulses.sample_rate / 200000 ∨
        pulses.diffFreq < 20000 ∨ pulses.diffFreq > 110000)) :
    ec3k_decode bb pulses = ec3_decode_row bb.row0 := by
  rw [ec3k_decode, if_neg h]

set_option maxHeartbeats 1000000 in
/-- C10: an 833-bit row accepted by the pre-filter at sample rate 1000000
(row-length bounds 450..1125) on which the frame assembler performs a
`packetbuffer` write at index 100, one past the last valid index of the
100-byte C array. -/
theorem packetbuffer_write_out_of_bounds :
    ec3k_decode { num_rows := 1, row0 := overflowRow }
        { sample_rate := 1000000, diffFreq := 50000 } = ec3_decode_row overflowRow ∧
      100 ∈ scanWrites overflowRow := by
  have hlen : overflowRow.length = 833 := by
    show (mkRow overflowOuts).length = 833
    rw [mkRow, symsToLevels_length, buildSymbols_length]
    simp [overflowOuts]
  constructor
  · exact ec3k_decode_filter_pass { num_rows := 1, row0 := overflowRow }
      { sample_rate := 1000000, diffFreq := 50000 }
      (by
        intro hcond
        simp only [show ({ num_rows := 1, row0 := overflowRow } : BitBuffer).row0 = overflowRow
            from rfl,
          show ({ num_rows := 1, row0 := overflowRow } : BitBuffer).num_rows = 1 from rfl,
          show ({ sample_rate := 1000000, diffFreq := 50000 } : PulseData).sample_rate = 1000000
            from rfl,
          show ({ sample_rate := 1000000, diffFreq := 50000 } : PulseData).diffFreq = 50000
            from rfl,
          hlen] at hcond
        norm_num at hcond)
  · rw [scanWrites_congr overflowRow overflowOuts outs_overflowRow]
    decide

theorem lor_eq_add_of_mod (k a b : Nat) (ha : a % 2 ^ k = 0) (hb : b < 2 ^ k) :
    a ||| b = a + b := by
  obtain ⟨q, hq⟩ : ∃ q, a = 2 ^ k * q :=
    ⟨a / 2 ^ k, by
      rw [Nat.mul_comm]
      exact (Nat.div_mul_cancel (Nat.dvd_of_mod_eq_zero ha)).symm⟩
  rw [hq, lor_eq_add_pow _ _ _ hb]

theorem energy_bits_eq (x12 x13 x14 x15 x33 x34 x35 : Nat)
    (h12 : x12 < 256) (h13 : x13 < 256) (h14 : x14 < 256) (h15 : x15 < 256)
    (h33 : x33 < 256) (h34 : x34 < 256) (h35 : x35 < 256) :
    ((x33 &&& 15) <<< 12 ||| x34 <<< 4 ||| x35 >>> 4) <<< 28 |||
        x12 <<< 20 ||| x13 <<< 12 ||| x14 <<< 4 ||| x15 >>> 4 =
      ((((x33 &&& 15) <<< 4 ||| x34 >>> 4 &&& 15) <<< 4 ||| x34 &&& 15) <<< 4 |||
          x35 >>> 4 &&& 15) <<< 28 |||
        (((((((x12 >>> 4 &&& 15) <<< 4 ||| x12 &&& 15) <<< 4 ||| x13 >>> 4 &&& 15) <<< 4 |||
          x13 &&& 15) <<< 4 ||| x14 >>> 4 &&& 15) <<< 4 ||| x14 &&& 15) <<< 4 |||
          x15 >>> 4 &&& 15) := by
  have hand : ∀ b : Nat, b &&& 15 = b % 16 := fun b => by
    have h := Nat.and_pow_two_sub_one_eq_mod b 4
    norm_num at h
    exact h
  have hshr : ∀ b : Nat, b >>> 4 = b / 16 := fun b => by
    rw [Nat.shiftRight_eq_div_pow]
  have or_mul16_mod : ∀ a b : Nat, a * 16 ||| b % 16 = a * 16 + b % 16 := fun a b =>
    lor_eq_add_of_mod 4 _ _ (by omega) (by omega)
  have or_4096_16 : ∀ (a b : Nat), b < 256 → a * 4096 ||| b * 16 = a * 4096 + b * 16 :=
    fun a b hb => lor_eq_add_of_mod 12 _ _ (by omega) (by omega)
  have or_sum_div : ∀ (a b c : Nat), c < 256 →
      a * 4096 + b * 16 ||| c / 16 = a * 4096 + b * 16 + c / 16 :=
    fun a b c hc => lor_eq_add_of_mod 4 _ _ (by omega) (by omega)
  have or_c28 : ∀ (a b : Nat), b < 256 →
      a * 268435456 ||| b * 1048576 = a * 268435456 + b * 1048576 :=
    fun a b hb => lor_eq_add_of_mod 28 _ _ (by omega) (by omega)
  have or_c20 : ∀ (a b c : Nat), c < 256 →
      a * 268435456 + b * 1048576 ||| c * 4096 = a * 268435456 + b * 1048576 + c * 4096 :=
    fun a b c hc => lor_eq_add_of_mod 20 _ _ (by omega) (by omega)
  have or_c12 : ∀ (a b c d : Nat), d < 256 →
      a * 268435456 + b * 1048576 + c * 4096 ||| d * 16 =
        a * 268435456 + b * 1048576 + c * 4096 + d * 16 :=
    fun a b c d hd => lor_eq_add_of_mod 12 _ _ (by omega) (by omega)
  have or_c4 : ∀ (a b c d e : Nat), e < 256 →
      a * 268435456 + b * 1048576 + c * 4096 + d * 16 ||| e / 16 =
        a * 268435456 + b * 1048576 + c * 4096 + d * 16 + e / 16 :=
    fun a b c d e he => lor_eq_add_of_mod 4 _ _ (by omega) (by omega)
  have or_top : ∀ (u y12 y13 y14 y15 : Nat),
      u * 268435456 |||
        ((((((y12 / 16 % 16 * 16 + y12 % 16) * 16 + y13 / 16 % 16) * 16 + y13 % 16) * 16 +
          y14 / 16 % 16) * 16 + y14 % 16) * 16 + y15 / 16 % 16) =
      u * 268435456 +
        ((((((y12 / 16 % 16 * 16 + y12 % 16) * 16 + y13 / 16 % 16) * 16 + y13 % 16) * 16 +
          y14 / 16 % 16) * 16 + y14 % 16) * 16 + y15 / 16 % 16) :=
    fun u y12 y13 y14 y15 => lor_eq_add_of_mod 28 _ _ (by omega) (by omega)
  simp only [hand, hshr, Nat.shiftLeft_eq]
  norm_num
  simp only [or_mul16_mod]
  rw [or_4096_16 _ x34 h34, or_sum_div _ _ x35 h35, or_c28 _ x12 h12, or_c20 _ _ x13 h13,
    or_c12 _ _ _ x14 h14, or_c4 _ _ _ _ x15 h15, or_top]
  omega

/-- C6: for every accepted 41-byte payload, the integer watt-second value
divided by `1000 * 3600` to produce the emitted energy equals
`energy_high ||| energy_low`, with `energy_high` the 16-bit value of
nibbles 67..70 shifted left by 28 and `energy_low` the 28-bit value of
nibbles 24..30. -/
theorem emitted_energy_assembly (pb : List Nat) (rec : TelemetryRecord)
    (hlen : pb.length = 41) (hbytes : ∀ b ∈ pb, b < 256)
    (hacc : extractRecord pb = some rec) :
    rec.energy_ws = (unpack_nibbles pb 67 4 <<< 28) ||| unpack_nibbles pb 24 7 := by
  have henergy : rec.energy_ws = ec3k_energy pb := by
    unfold extractRecord at hacc
    split_ifs at hacc
    have h2 := Option.some.inj hacc
    rw [← h2]
  rw [henergy]
  have hbb : ∀ j, j < 41 → pb[j]?.getD 0 < 256 := by
    intro j hj
    rw [List.getElem?_eq_getElem (by omega)]
    exact hbytes _ (List.getElem_mem _)
  simp only [ec3k_energy, unpack_nibbles, List.range_succ, List.range_zero, List.foldl_append,
    List.foldl_cons, List.foldl_nil]
  norm_num
  exact energy_bits_eq _ _ _ _ _ _ _ (hbb 12 (by norm_num)) (hbb 13 (by norm_num))
    (hbb 14 (by norm_num)) (hbb 15 (by norm_num)) (hbb 33 (by norm_num))
    (hbb 34 (by norm_num)) (hbb 35 (by norm_num))

/-- Witness for C6 at a concrete accepted payload (39 zero bytes plus the
matching little-endian CRC bytes). -/
theorem emitted_energy_assembly_witness :
    (TelemetryRecord.mk 0 0 0).energy_ws =
      (unpack_nibbles cPayload 67 4 <<< 28) ||| unpack_nibbles cPayload 24 7 :=
  emitted_energy_assembly cPayload (TelemetryRecord.mk 0 0 0) (by decide) (by decide) (by decide)
